import Mathlib

/-!
Verification of the multi-tenant RAG server (ingestion pipeline, streaming
query orchestrator, tenant-scoped retrieval).  Go sources are embedded as
executable Lean definitions; external collaborators (database, HTTP, the
OpenAI endpoint) are parameters supplying outcomes and durations, so that
every control-flow branch of the Go code is represented.
-/

namespace MultiTenantAI

/-! Document status, from internal/document (part_003): `Status` constants. -/

inductive Status where
  | pending
  | processing
  | ready
  | failed
  deriving DecidableEq, Repr

/-- The `Document` record from internal/document (part_003).  Timestamps are
omitted: no verified property mentions them. -/
structure Document where
  id : String
  orgID : String
  name : String
  content : String
  status : Status
  chunkCount : Nat
  deriving DecidableEq, Repr

/-!
Streaming completion, from internal/llm/openai.go `OpenAIClient.StreamCompletion`.
The SSE body is modelled as the list of scanned lines, each already classified
the way the Go loop classifies it: a line without the data marker
(`continue`), the end-of-stream marker (`break`), a line whose JSON fails to
unmarshal or has no choices (`continue`), or a parsed delta content string
(sent iff non-empty).  `cancelAt = some k` means the context's cancellation is
observed at the k-th send attempt (Go `select` nondeterminism is the choice of
`k`); `none` means the caller never cancels.
-/

inductive SSELine where
  | notData
  | done
  | malformed
  | content (s : String)
  deriving DecidableEq, Repr

structure StreamEnv where
  reqErr : Bool
  doErr : Bool
  status : Nat
  lines : List SSELine
  cancelAt : Option Nat
  scanErr : Bool
  deriving DecidableEq, Repr

/-- The delta contents the Go loop would attempt to send: every non-empty
parsed content before the end-of-stream marker, in arrival order. -/
def extractContents : List SSELine → List String
  | [] => []
  | SSELine.done :: _ => []
  | SSELine.notData :: rest => extractContents rest
  | SSELine.malformed :: rest => extractContents rest
  | SSELine.content s :: rest =>
    if s = "" then extractContents rest else s :: extractContents rest

/-- The scan-and-relay loop of `StreamCompletion` (openai.go lines 77-104).
Returns the fragments delivered to the sink and whether the loop exited via
the context-cancellation arm of the `select`. -/
def relayLoop (cancelAt : Option Nat) : Nat → List SSELine → List String × Bool
  | _, [] => ([], false)
  | _, SSELine.done :: _ => ([], false)
  | n, SSELine.notData :: rest => relayLoop cancelAt n rest
  | n, SSELine.malformed :: rest => relayLoop cancelAt n rest
  | n, SSELine.content s :: rest =>
    if s = "" then relayLoop cancelAt n rest
    else
      match cancelAt with
      | some k =>
        if k ≤ n then ([], true)
        else
          let pr := relayLoop cancelAt (n + 1) rest
          (s :: pr.1, pr.2)
      | none =>
        let pr := relayLoop cancelAt n rest
        (s :: pr.1, pr.2)

/-- Observable outcome of one `StreamCompletion` call: fragments delivered to
the sink, number of times the sink channel was closed, and whether an error
was returned. -/
structure StreamResult where
  sent : List String
  closes : Nat
  err : Bool
  deriving DecidableEq, Repr

/-- `OpenAIClient.StreamCompletion` (openai.go lines 43-107).  The first line
is `defer close(out)`, so every path of the function body closes the sink
exactly once; the early-error paths (request construction, transport error,
non-200 status) deliver nothing. -/
def streamCompletion (env : StreamEnv) : StreamResult :=
  if env.reqErr then { sent := [], closes := 1, err := true }
  else if env.doErr then { sent := [], closes := 1, err := true }
  else if env.status ≠ 200 then { sent := [], closes := 1, err := true }
  else
    let pr := relayLoop env.cancelAt 0 env.lines
    { sent := pr.1, closes := 1, err := pr.2 || env.scanErr }

/-!
Tenant-scoped retrieval, from `LangChainVectorStore.SimilaritySearch`
(cmd/server/main.go lines 217-231).  The wrapper passes
`WithFilters({org_id: orgID})` to langchaingo's pgvector store.
-/

/-- A row of the embedding table, with the metadata `splitDocument` attaches
(`org_id`, `document_id`).  The embedding vector is abstracted into the
`score` parameter of `similaritySearch`. -/
structure StoredChunk where
  orgID : String
  documentID : String
  content : String
  deriving DecidableEq, Repr

def insertByScore (score : StoredChunk → Int) (c : StoredChunk) :
    List StoredChunk → List StoredChunk
  | [] => [c]
  | d :: rest =>
    if score d ≤ score c then c :: d :: rest else d :: insertByScore score c rest

/-- Descending-score ordering (pgvector `ORDER BY` distance). -/
def sortByScore (score : StoredChunk → Int) : List StoredChunk → List StoredChunk
  | [] => []
  | c :: rest => insertByScore score c (sortByScore score rest)

/-- Modelled from the spec: the search langchaingo's pgvector store executes
for `SimilaritySearch` (its body is in the external dependency, not under the
repository sources).  Per the store contract of spec section 4.3 and the code's
`WithFilters` option, the `org_id` filter is a `WHERE` clause applied before
similarity ranking: candidates are narrowed to the tenant, then ordered by
score and limited to `topK`.  `score` abstracts vector proximity, so the
result holds for arbitrarily adversarial similarity. -/
def similaritySearch (store : List StoredChunk) (score : StoredChunk → Int)
    (orgID : String) (topK : Int) : List StoredChunk :=
  (sortByScore score (store.filter (fun r => r.orgID == orgID))).take topK.toNat

/-- `QueryRequest` from cmd/server/main.go. -/
structure QueryRequest where
  orgID : String
  question : String
  topK : Int
  deriving DecidableEq, Repr

/-- `Query` lines 298-300: non-positive TopK defaults to 5. -/
def resolveTopK (k : Int) : Int := if k ≤ 0 then 5 else k

structure QueryEnv where
  searchErr : Bool
  stream : StreamEnv
  deriving DecidableEq, Repr

/-- Observable outcome of one `RAGService.Query` call. -/
structure QueryResult where
  retrieved : List StoredChunk
  sent : List String
  closes : Nat
  err : Bool
  deriving DecidableEq, Repr

/-- `RAGService.Query` (cmd/server/main.go lines 297-328).  S1 retrieves via
`similaritySearch`; on a retrieval error the function returns at line 305
without ever touching the `out` channel (the only `close(out)` in the program
is the `defer` inside `StreamCompletion`), so that path closes the sink zero
times.  S2 (prompt assembly) is pure string formatting and does not affect
the sink, the retrieved set, or the returned error; it is not re-verified
here.  S3 delegates to `streamCompletion`. -/
def ragQuery (store : List StoredChunk) (score : StoredChunk → Int)
    (req : QueryRequest) (env : QueryEnv) : QueryResult :=
  let k := resolveTopK req.topK
  if env.searchErr then { retrieved := [], sent := [], closes := 0, err := true }
  else
    let results := similaritySearch store score req.orgID k
    let sr := streamCompletion env.stream
    { retrieved := results, sent := sr.sent, closes := sr.closes, err := sr.err }

/-!
Document deletion, from `Service.Delete` (part_003 lines 179-184),
`LangChainVectorStore.DeleteByDocument` (cmd/server/main.go lines 235-245)
and `Repository.Delete` (part_003 lines 85-90).
-/

/-- A row of the `documents` metadata table (only the delete-relevant key). -/
structure MetaRow where
  id : String
  orgID : String
  deriving DecidableEq, Repr

/-- Durable state the delete path touches: the vector store's chunk rows and
the `documents` metadata rows. -/
structure AppState where
  vectorChunks : List StoredChunk
  documents : List MetaRow
  deriving DecidableEq, Repr

/-- Outcome of a call on the delete path: either the call panicked (the Go
function never returns, neither success nor error) or it returned with an
optional error; in both cases the durable stores stand as recorded. -/
inductive DeleteOutcome where
  | panicked (st : AppState)
  | returned (err : Option String) (st : AppState)
  deriving DecidableEq, Repr

/-- The durable state as the call left it. -/
def DeleteOutcome.state : DeleteOutcome → AppState
  | DeleteOutcome.panicked st => st
  | DeleteOutcome.returned _ st => st

/-- `LangChainVectorStore.DeleteByDocument` (main.go lines 235-245): the body
is `return vs.store.RemoveCollection(ctx, nil)`.  langchaingo's
`Store.RemoveCollection(ctx, tx pgx.Tx)` immediately invokes `tx.Exec` on
the transaction it is handed; the call site passes `nil`, and a method call
on a nil `pgx.Tx` interface value panics.  The call therefore never returns
— no error value, no success — and removes nothing (the in-source "no-op
placeholder" comment is wrong about the panic; and had a live transaction
been supplied, `RemoveCollection` would have deleted the entire collection,
every tenant's chunks, not this document's). -/
def deleteByDocument (st : AppState) ( _documentID : String) : DeleteOutcome :=
  DeleteOutcome.panicked st

/-- `Service.Delete` (part_003 lines 179-184): the vector-store delete runs
first; since it panics, the panic propagates out of `Delete` and the rest of
the function is dead code.  The source's `err != nil` early return and the
metadata delete (`Repository.Delete`, which removes the rows matching
`id = docID AND org_id = orgID`, or changes nothing on a database error
`dbErr`) are embedded as the continuations they are in the source, reachable
only from a `DeleteByDocument` call that returned. -/
def serviceDelete (st : AppState) (docID orgID : String)
    (dbErr : Option String) : DeleteOutcome :=
  match deleteByDocument st docID with
  | DeleteOutcome.panicked st1 => DeleteOutcome.panicked st1
  | DeleteOutcome.returned (some e) st1 => DeleteOutcome.returned (some e) st1
  | DeleteOutcome.returned none st1 =>
    match dbErr with
    | some e => DeleteOutcome.returned (some e) st1
    | none =>
      DeleteOutcome.returned none
        { st1 with
          documents := st1.documents.filter (fun r => !(r.id == docID && r.orgID == orgID)) }

/-!
Upload and the bounded job queue, from `Service.Upload` and `NewService`
(part_003 lines 125-173).
-/

structure UploadRequest where
  orgID : String
  name : String
  content : String
  deriving DecidableEq, Repr

/-- `NewService` (part_003 line 130): `jobs: make(chan ingestJob, 256)`. -/
def queueCapacity : Nat := 256

/-- `Service.Upload` (part_003 lines 149-173).  `newID` stands for the fresh
`uuid.NewString()`; `createErr` is the outcome of the metadata `INSERT`.  The
enqueue is the non-blocking `select` on the buffered channel: it succeeds iff
the queue has room, and on a full queue the `default` arm only logs — the
document and the nil error are returned unchanged and the job is dropped. -/
def upload (newID : String) (queue : List String) (createErr : Option String)
    (req : UploadRequest) : Option Document × Option String × List String :=
  let doc : Document :=
    { id := newID, orgID := req.orgID, name := req.name, content := req.content,
      status := Status.pending, chunkCount := 0 }
  match createErr with
  | some e => (none, some e, queue)
  | none =>
    if queue.length < queueCapacity then (some doc, none, queue ++ [newID])
    else (some doc, none, queue)

/-!
The chunk-store write consumed by the ingestion pipeline:
`LangChainVectorStore.AddDocuments` (main.go lines 208-211) delegates to
langchaingo's pgvector `AddDocuments`, a plain `INSERT` that generates a fresh
uuid for every row; neither it nor the repository schema (part_005, table
`document_chunks`, whose only key is `id`) deduplicates on
`(document_id, chunk_index)`.
-/

/-- A stored chunk row keyed the way the spec's upsert contract keys it.  The
fresh per-insert uuid is modelled as a counter. -/
structure ChunkRow where
  id : Nat
  documentID : String
  chunkIndex : Nat
  content : String
  deriving DecidableEq, Repr

/-- The store's add operation: append one row per incoming chunk, each with a
fresh id; no conflict clause, no dedup. -/
def addDocuments (store : List ChunkRow) (nextID : Nat) :
    List (String × Nat × String) → List ChunkRow × Nat
  | [] => (store, nextID)
  | (d, i, c) :: rest =>
    addDocuments (store ++ [{ id := nextID, documentID := d, chunkIndex := i, content := c }])
      (nextID + 1) rest

/-- Number of stored chunks with the given `(document_id, chunk_index)` key. -/
def countKey (store : List ChunkRow) (d : String) (i : Nat) : Nat :=
  (store.filter (fun r => r.documentID == d && r.chunkIndex == i)).length

/-!
Text splitting.  `splitDocument` (part_003 lines 92-110) delegates to the
pinned dependency langchaingo v0.1.x: `textsplitter.NewRecursiveCharacter`
with `WithChunkSize(512)` and `WithChunkOverlap(64)`, then
`textsplitter.CreateDocuments`.  The splitter measures length in runes
(its default length function is `utf8.RuneCountInString`), splits recursively
on the default separators `"\n\n"`, `"\n"`, `" "`, `""`, and merges the pieces
into windows of at most `ChunkSize` runes whose successive windows re-use
trailing pieces up to `ChunkOverlap` runes.  The helpers below embed, on
`List Char`, the Go standard-library string functions it uses and then the
splitter itself.  Bounded recursion is expressed with an explicit fuel
argument where the Go recursion is on suffixes (fuel is always sufficient at
the call sites, which pass the structure's own length).
-/

/-- Go `unicode.IsSpace`: the Unicode White_Space property
(U+0009-U+000D, U+0020, U+0085, U+00A0, U+1680, U+2000-U+200A, U+2028,
U+2029, U+202F, U+205F, U+3000). -/
def goIsSpace (c : Char) : Bool :=
  let n := c.toNat
  (decide (0x0009 <= n) && decide (n <= 0x000D)) || n == 0x0020 || n == 0x0085 ||
    n == 0x00A0 || n == 0x1680 ||
    (decide (0x2000 <= n) && decide (n <= 0x200A)) || n == 0x2028 || n == 0x2029 ||
    n == 0x202F || n == 0x205F || n == 0x3000

/-- Whether the first list is a leading run of the second (Go
`strings.HasPrefix` on rune lists). -/
def goHasPre [BEq α] : List α → List α → Bool
  | [], _ => true
  | _ :: _, [] => false
  | a :: as, b :: bs => a == b && goHasPre as bs

/-- Go `strings.Contains text sub`. -/
def goContains : List Char → List Char → Bool
  | [], sub => sub.isEmpty
  | c :: rest, sub => goHasPre sub (c :: rest) || goContains rest sub

/-- Core of Go `strings.Split` for a non-empty separator: split around each
non-overlapping occurrence, left to right.  `fuel` bounds the recursion
(callers pass the text length, which always suffices since every step
consumes at least one character). -/
def splitNEAux (sep : List Char) : Nat → List Char → List (List Char)
  | _, [] => [[]]
  | 0, l => [l]
  | fuel + 1, c :: rest =>
    if goHasPre sep (c :: rest) then
      [] :: splitNEAux sep fuel (rest.drop (sep.length - 1))
    else
      match splitNEAux sep fuel rest with
      | [] => [[c]]
      | h :: t => (c :: h) :: t

/-- Go `strings.Split text sep`: for the empty separator it explodes the text
into single runes (yielding `[]` on empty text); otherwise `splitNEAux`. -/
def goSplit (text sep : List Char) : List (List Char) :=
  if sep.isEmpty then text.map (fun c => [c])
  else splitNEAux sep text.length text

/-- Go `strings.Join docs sep`. -/
def goJoin (sep : List Char) : List (List Char) → List Char
  | [] => []
  | [d] => d
  | d :: e :: t => d ++ sep ++ goJoin sep (e :: t)

/-- Go `strings.TrimSpace`. -/
def goTrimSpace (s : List Char) : List Char :=
  ((s.dropWhile goIsSpace).reverse.dropWhile goIsSpace).reverse

/-- langchaingo `textsplitter.joinDocs`: join then trim. -/
def joinDocs (docs : List (List Char)) (sep : List Char) : List Char :=
  goTrimSpace (goJoin sep docs)

/-- langchaingo `textsplitter.shouldPop`: keep evicting the front of the
current window while assembling the overlap for the next chunk. -/
def shouldPop (chunkOverlap chunkSize total splitLen separatorLen : Int)
    (currentDocLen : Nat) : Bool :=
  let sepLen : Int := if currentDocLen < 2 then 0 else separatorLen
  decide (0 < currentDocLen) &&
    (decide (chunkOverlap < total) ||
      (decide (chunkSize < total + splitLen + sepLen) && decide (0 < total)))

/-- The pop loop inside langchaingo `textsplitter.mergeSplits`: drop leading
pieces of the current window (adjusting the running total, which counts
separators between retained pieces) while `shouldPop` says so. -/
def popWhile (chunkOverlap chunkSize sepLen splitLen : Int) :
    List (List Char) → Int → List (List Char) × Int
  | [], total => ([], total)
  | d :: rest, total =>
    if shouldPop chunkOverlap chunkSize total splitLen sepLen (rest.length + 1) then
      popWhile chunkOverlap chunkSize sepLen splitLen rest
        (total - (d.length : Int) - (if rest.isEmpty then 0 else sepLen))
    else (d :: rest, total)

/-- langchaingo `textsplitter.mergeSplits`, processing the splits with the
running window `currentDoc` and its length total: when the next split would
overflow `chunkSize`, emit the joined window (if non-empty after trimming),
evict pieces down to the `chunkOverlap` budget, and continue; finally emit
the remaining window. -/
def mergeSplitsAux (sep : List Char) (chunkSize chunkOverlap : Int) :
    List (List Char) → List (List Char) → Int → List (List Char)
  | [], currentDoc, _ =>
    let doc := joinDocs currentDoc sep
    if doc.isEmpty then [] else [doc]
  | split :: rest, currentDoc, total =>
    let sepLen : Int := (sep.length : Int)
    let totalWithSplit :=
      total + (split.length : Int) + (if currentDoc.isEmpty then 0 else sepLen)
    if chunkSize < totalWithSplit ∧ currentDoc ≠ [] then
      let doc := joinDocs currentDoc sep
      let emitted := if doc.isEmpty then [] else [doc]
      let pr := popWhile chunkOverlap chunkSize sepLen (split.length : Int) currentDoc total
      emitted ++ mergeSplitsAux sep chunkSize chunkOverlap rest (pr.1 ++ [split])
        (pr.2 + (split.length : Int) + (if pr.1.isEmpty then 0 else sepLen))
    else
      mergeSplitsAux sep chunkSize chunkOverlap rest (currentDoc ++ [split]) totalWithSplit

def mergeSplits (sep : List Char) (chunkSize chunkOverlap : Int)
    (splits : List (List Char)) : List (List Char) :=
  mergeSplitsAux sep chunkSize chunkOverlap splits [] 0

/-- Separator selection at the top of langchaingo
`RecursiveCharacter.splitText`: the first separator that is empty or occurs
in the text, together with the remaining separators; defaults to the last
separator with no remainder. -/
def chooseSep : List (List Char) → List Char → List Char × List (List Char)
  | [], _ => ([], [])
  | [c], _ => (c, [])
  | c :: rest, text =>
    if c.isEmpty || goContains text c then (c, rest) else chooseSep rest text

/-- The loop over splits inside `RecursiveCharacter.splitText`: small splits
accumulate into `good`; a split at least `chunkSize` long first flushes the
accumulated run through `mergeSplits`, then is re-split with the remaining
separators (`recur`) — or appended as-is when none remain — and the loop
continues with an empty run.  The trailing run is flushed at the end. -/
def splitLoopH (chunkSize chunkOverlap : Int) (sep : List Char)
    (newSeps : List (List Char)) (recur : List Char → List (List Char)) :
    List (List Char) → List (List Char) → List (List Char)
  | [], good => if good.isEmpty then [] else mergeSplits sep chunkSize chunkOverlap good
  | s :: rest, good =>
    if (s.length : Int) < chunkSize then
      splitLoopH chunkSize chunkOverlap sep newSeps recur rest (good ++ [s])
    else
      let flushed := if good.isEmpty then [] else mergeSplits sep chunkSize chunkOverlap good
      let sub := if newSeps.isEmpty then [s] else recur s
      flushed ++ sub ++ splitLoopH chunkSize chunkOverlap sep newSeps recur rest []

/-- langchaingo `RecursiveCharacter.splitText`.  `fuel` bounds the recursion
into the shrinking separator list (the Go function would index out of bounds
on an empty separator list; it is never called that way, and callers here
pass the separator count as fuel, which always suffices). -/
def splitTextF (chunkSize chunkOverlap : Int) :
    Nat → List (List Char) → List Char → List (List Char)
  | 0, _, _ => []
  | fuel + 1, seps, text =>
    if seps.isEmpty then []
    else
      let sn := chooseSep seps text
      splitLoopH chunkSize chunkOverlap sn.1 sn.2
        (fun t => splitTextF chunkSize chunkOverlap fuel sn.2 t)
        (goSplit text sn.1) []

def splitText (chunkSize chunkOverlap : Int) (seps : List (List Char))
    (text : List Char) : List (List Char) :=
  splitTextF chunkSize chunkOverlap seps.length seps text

/-- The splitter's default separators. -/
def goSeparators : List (List Char) := [['\n', '\n'], ['\n'], [' '], []]

/-- Metadata attached to every chunk by `splitDocument` (part_003 lines
102-108). -/
structure ChunkMetadata where
  orgID : String
  documentID : String
  docName : String
  deriving DecidableEq, Repr

/-- langchaingo `schema.Document`. -/
structure SchemaDocument where
  pageContent : String
  metadata : ChunkMetadata
  deriving DecidableEq, Repr

/-- `splitDocument` (part_003 lines 92-110): split the content with the
recursive character splitter (chunk size 512, overlap 64) and attach the
document's metadata to every chunk (`textsplitter.CreateDocuments` with one
text and one metadata map; its only error, a text/metadata length mismatch,
cannot occur here). -/
def splitDocument (doc : Document) : List SchemaDocument :=
  (splitText 512 64 goSeparators doc.content.data).map
    (fun cs =>
      { pageContent := String.mk cs,
        metadata :=
          { orgID := doc.orgID, documentID := doc.id, docName := doc.name } })

/-!
The ingestion worker pipeline, `Service.ingest` (part_003 lines 197-227).
Each effectful call (the three `UpdateStatus` variants and `AddDocuments`)
runs under the job's `context.WithTimeout` of 5 minutes and is modelled by an
`OpSpec`: its intrinsic outcome had the deadline not interfered, and its wall
duration.  `runOp` applies the context semantics: a call issued at or after
the deadline fails immediately (pgx checks the context before executing), and
a call the deadline interrupts fails at the deadline.
-/

structure OpSpec where
  ok : Bool
  dur : Nat
  deriving DecidableEq, Repr

/-- `context.WithTimeout(context.Background(), 5*time.Minute)`, in seconds. -/
def ingestDeadline : Nat := 5 * 60

def runOp (clock : Nat) (op : OpSpec) : Bool × Nat :=
  if ingestDeadline ≤ clock then (false, clock)
  else if ingestDeadline < clock + op.dur then (false, ingestDeadline)
  else (op.ok, clock + op.dur)

/-- Outcomes and durations of the effectful calls `ingest` can make, in
source order: the status update to `processing`, the vector-store
`AddDocuments`, the update to `failed` after a split failure, the update to
`failed` after an add failure, and the update to `ready`. -/
structure IngestEnv where
  updProcessing : OpSpec
  add : OpSpec
  updFailedSplit : OpSpec
  updFailedAdd : OpSpec
  updReady : OpSpec
  deriving DecidableEq, Repr

/-- The document's metadata row as the pipeline leaves it. -/
structure DocRow where
  status : Status
  chunkCount : Nat
  deriving DecidableEq, Repr

/-- `Service.ingest` (part_003 lines 197-227), returning the document row
after the job has quiesced.  The row starts as the upload left it
(`pending`, 0); an `UpdateStatus` call changes it only when the call
succeeds; every error branch merely logs and returns, exactly as in the
source. -/
def ingest (doc : Document) (env : IngestEnv) : DocRow :=
  let p1 := runOp 0 env.updProcessing
  if !p1.1 then { status := Status.pending, chunkCount := 0 }
  else
    let chunks := splitDocument doc
    if chunks.isEmpty then
      let p2 := runOp p1.2 env.updFailedSplit
      if p2.1 then { status := Status.failed, chunkCount := 0 }
      else { status := Status.processing, chunkCount := 0 }
    else
      let pa := runOp p1.2 env.add
      if !pa.1 then
        let p3 := runOp pa.2 env.updFailedAdd
        if p3.1 then { status := Status.failed, chunkCount := 0 }
        else { status := Status.processing, chunkCount := 0 }
      else
        let p4 := runOp pa.2 env.updReady
        if p4.1 then { status := Status.ready, chunkCount := chunks.length }
        else { status := Status.processing, chunkCount := 0 }

/-!
Spec-side vocabulary used to state the claims about the splitter: the words
of a chunk, the trailing `n` words, and the specification's required
adjacent-chunk overlap (chunk i+1 starting with the final 64 words of
chunk i).
-/

/-- The words of a text: maximal space-separated runs. -/
def wordsOf (s : List Char) : List (List Char) :=
  (goSplit s [' ']).filter (fun w => !w.isEmpty)

/-- The final `n` words. -/
def lastWords (n : Nat) (ws : List (List Char)) : List (List Char) :=
  ws.drop (ws.length - n)

/-- The claimed overlap discipline: for every adjacent pair of chunks, the
second starts with the final 64 words of the first. -/
def wordOverlap64 (chunks : List (List Char)) : Bool :=
  (chunks.zip (chunks.drop 1)).all
    (fun p => goHasPre (lastWords 64 (wordsOf p.1)) (wordsOf p.2))

/-- A text containing at least one non-whitespace character. -/
def HasInk (l : List Char) : Prop := ∃ c ∈ l, goIsSpace c = false

/-- A text made entirely of whitespace characters (as every splitter
separator is). -/
def AllSpace (l : List Char) : Prop := ∀ c ∈ l, goIsSpace c = true

/-- Every separator in the list is whitespace-only. -/
def AllSpaceSeps (seps : List (List Char)) : Prop := ∀ s ∈ seps, AllSpace s

/-! Concrete fixtures used by counterexamples and witnesses. -/

def docHello : Document :=
  { id := "doc1", orgID := "org1", name := "greeting", content := "hello",
    status := Status.pending, chunkCount := 0 }

def docWhitespace : Document :=
  { id := "docw", orgID := "org1", name := "blank", content := " ",
    status := Status.pending, chunkCount := 0 }

/-- Seventy space-separated seven-character words: 559 characters, which the
character-based splitter cuts into a 64-word chunk and a 14-word chunk. -/
def docRepeated : Document :=
  { id := "docr", orgID := "org1", name := "rep",
    content := String.intercalate " " (List.replicate 70 "aaaaaaa"),
    status := Status.pending, chunkCount := 0 }

def envAllOk : IngestEnv :=
  { updProcessing := { ok := true, dur := 0 }, add := { ok := true, dur := 0 },
    updFailedSplit := { ok := true, dur := 0 }, updFailedAdd := { ok := true, dur := 0 },
    updReady := { ok := true, dur := 0 } }

/-- Everything succeeds promptly except the final update to `ready`, which
the database rejects. -/
def envReadyFails : IngestEnv :=
  { updProcessing := { ok := true, dur := 0 }, add := { ok := true, dur := 0 },
    updFailedSplit := { ok := true, dur := 0 }, updFailedAdd := { ok := true, dur := 0 },
    updReady := { ok := false, dur := 0 } }

/-- The vector-store add outlives the 5-minute job deadline (301 seconds at
the 300-second mark); every database update would succeed if reachable. -/
def envSlowAdd : IngestEnv :=
  { updProcessing := { ok := true, dur := 0 }, add := { ok := true, dur := 301 },
    updFailedSplit := { ok := true, dur := 0 }, updFailedAdd := { ok := true, dur := 0 },
    updReady := { ok := true, dur := 0 } }

def chunkOfDoc1 : StoredChunk :=
  { orgID := "orgA", documentID := "doc1", content := "alpha" }

def chunkOfOrgB : StoredChunk :=
  { orgID := "orgB", documentID := "doc9", content := "secret" }

def streamEnvOk : StreamEnv :=
  { reqErr := false, doErr := false, status := 200,
    lines := [SSELine.content "Hel", SSELine.notData, SSELine.content "",
              SSELine.malformed, SSELine.content "lo", SSELine.done,
              SSELine.content "after-done"],
    cancelAt := none, scanErr := false }

/-- One document of tenant `orgA` with one stored chunk. -/
def stOneDoc : AppState :=
  { vectorChunks := [chunkOfDoc1],
    documents := [{ id := "doc1", orgID := "orgA" }] }

/-!
Theorems.  Helper lemmas come first, then one theorem per claim (with its
witness or counterexample where required).
-/

theorem mem_insertByScore (score : StoredChunk → Int) (c d : StoredChunk) :
    ∀ l : List StoredChunk, d ∈ insertByScore score c l → d = c ∨ d ∈ l := by
  intro l
  induction l with
  | nil =>
    intro h
    simp only [insertByScore, List.mem_singleton] at h
    exact Or.inl h
  | cons e rest ih =>
    intro h
    simp only [insertByScore] at h
    by_cases hc : score e ≤ score c
    · rw [if_pos hc] at h
      rcases List.mem_cons.mp h with h1 | h2
      · exact Or.inl h1
      · exact Or.inr h2
    · rw [if_neg hc] at h
      rcases List.mem_cons.mp h with h1 | h2
      · exact Or.inr (List.mem_cons.mpr (Or.inl h1))
      · rcases ih h2 with h3 | h4
        · exact Or.inl h3
        · exact Or.inr (List.mem_cons.mpr (Or.inr h4))

theorem mem_sortByScore (score : StoredChunk → Int) (d : StoredChunk) :
    ∀ l : List StoredChunk, d ∈ sortByScore score l → d ∈ l := by
  intro l
  induction l with
  | nil => intro h; simp [sortByScore] at h
  | cons e rest ih =>
    intro h
    simp only [sortByScore] at h
    rcases mem_insertByScore score e d _ h with h1 | h2
    · exact List.mem_cons.mpr (Or.inl h1)
    · exact List.mem_cons.mpr (Or.inr (ih h2))

theorem similaritySearch_orgID (store : List StoredChunk) (score : StoredChunk → Int)
    (a : String) (k : Int) (d : StoredChunk)
    (hd : d ∈ similaritySearch store score a k) : d.orgID = a := by
  have h1 : d ∈ sortByScore score (store.filter fun r => r.orgID == a) :=
    List.take_subset _ _ hd
  have h2 := mem_sortByScore score d _ h1
  have h3 := (List.mem_filter.mp h2).2
  simpa using h3

/-- Claim C1: a similarity search scoped to organization A — whether invoked
directly or from inside `RAGService.Query` — never returns a chunk whose
stored org_id is another organization B, for every query, every top_k and
every similarity scoring (in particular for scorings that rank B's chunks
arbitrarily high). -/
theorem query_tenant_isolation (store : List StoredChunk) (score : StoredChunk → Int)
    (a b : String) (k : Int) (req : QueryRequest) (env : QueryEnv)
    (hab : a ≠ b) (horg : req.orgID = a) :
    (∀ d ∈ similaritySearch store score a k, d.orgID ≠ b) ∧
    (∀ d ∈ (ragQuery store score req env).retrieved, d.orgID ≠ b) := by
  constructor
  · intro d hd
    rw [similaritySearch_orgID store score a k d hd]
    exact hab
  · intro d hd
    by_cases hse : env.searchErr
    · simp [ragQuery, hse] at hd
    · simp only [ragQuery, hse, if_neg, Bool.false_eq_true, if_false] at hd
      rw [similaritySearch_orgID store score req.orgID _ d hd, horg]
      exact hab

/-- Witness for C1: tenant `orgA` queries a store holding a foreign chunk
(`chunkOfOrgB`) that any adversarial scoring may rank first; no result has
org_id `orgB`. -/
theorem query_tenant_isolation_witness :
    ("orgA" : String) ≠ "orgB" ∧
    (∀ d ∈ similaritySearch [chunkOfOrgB, chunkOfDoc1] (fun _ => 9) "orgA" 5,
      d.orgID ≠ "orgB") ∧
    (∀ d ∈ (ragQuery [chunkOfOrgB, chunkOfDoc1] (fun _ => 9)
        { orgID := "orgA", question := "q", topK := 0 }
        { searchErr := false, stream := streamEnvOk }).retrieved,
      d.orgID ≠ "orgB") :=
  ⟨by decide,
    (query_tenant_isolation [chunkOfOrgB, chunkOfDoc1] (fun _ => 9) "orgA" "orgB" 5
      { orgID := "orgA", question := "q", topK := 0 }
      { searchErr := false, stream := streamEnvOk } (by decide) rfl).1,
    (query_tenant_isolation [chunkOfOrgB, chunkOfDoc1] (fun _ => 9) "orgA" "orgB" 5
      { orgID := "orgA", question := "q", topK := 0 }
      { searchErr := false, stream := streamEnvOk } (by decide) rfl).2⟩

/-- Claim C2 (code bug): when the similarity search fails, `RAGService.Query`
returns at once and the sink is closed zero times — not exactly once as
specified: the only `close(out)` in the program is the `defer` inside
`StreamCompletion`, which is never reached on this path.  The caller's
`for range out` loop then never terminates. -/
theorem ragQuery_search_error_sink_never_closed :
    (ragQuery [] (fun _ => 0) { orgID := "orgA", question := "q", topK := 5 }
      { searchErr := true, stream := streamEnvOk }).closes = 0 ∧
    (ragQuery [] (fun _ => 0) { orgID := "orgA", question := "q", topK := 5 }
      { searchErr := true, stream := streamEnvOk }).err = true := by
  exact ⟨rfl, rfl⟩

theorem relayLoop_none (n : Nat) (lines : List SSELine) :
    relayLoop none n lines = (extractContents lines, false) := by
  induction lines generalizing n with
  | nil => simp [relayLoop, extractContents]
  | cons hd rest ih =>
    cases hd with
    | notData => simpa [relayLoop, extractContents] using ih n
    | done => simp [relayLoop, extractContents]
    | malformed => simpa [relayLoop, extractContents] using ih n
    | content s =>
      by_cases hs : s = ""
      · simpa [relayLoop, extractContents, hs] using ih n
      · simp [relayLoop, extractContents, hs, ih n]

theorem relayLoop_some (k : Nat) (n : Nat) (lines : List SSELine) :
    (relayLoop (some k) n lines).1 = (extractContents lines).take (k - n) := by
  induction lines generalizing n with
  | nil => simp [relayLoop, extractContents]
  | cons hd rest ih =>
    cases hd with
    | notData => simpa [relayLoop, extractContents] using ih n
    | done => simp [relayLoop, extractContents]
    | malformed => simpa [relayLoop, extractContents] using ih n
    | content s =>
      by_cases hs : s = ""
      · simpa [relayLoop, extractContents, hs] using ih n
      · by_cases hk : k ≤ n
        · have h0 : k - n = 0 := Nat.sub_eq_zero_of_le hk
          simp [relayLoop, extractContents, hs, hk, h0]
        · have h2 : k - n = (k - (n + 1)) + 1 := by omega
          simp [relayLoop, extractContents, hs, hk, ih (n + 1), h2]

/-- Claim C8: every fragment the completion provider produces is relayed to
the sink in arrival order with exact content (the delivered list is a prefix
of the produced list, the whole list when the caller never cancels), and once
cancellation is observed at the k-th send no further fragment is delivered
(exactly the first k fragments are); the sink is closed once. -/
theorem streamCompletion_relays_fragments (env : StreamEnv)
    (h1 : env.reqErr = false) (h2 : env.doErr = false) (h3 : env.status = 200) :
    (∃ t, (streamCompletion env).sent ++ t = extractContents env.lines) ∧
    (env.cancelAt = none →
      (streamCompletion env).sent = extractContents env.lines) ∧
    (∀ k, env.cancelAt = some k →
      (streamCompletion env).sent = (extractContents env.lines).take k) ∧
    (streamCompletion env).closes = 1 := by
  have hsent : (streamCompletion env).sent = (relayLoop env.cancelAt 0 env.lines).1 := by
    simp [streamCompletion, h1, h2, h3]
  have hcl : (streamCompletion env).closes = 1 := by
    simp [streamCompletion, h1, h2, h3]
  refine ⟨?_, ?_, ?_, hcl⟩
  · cases hca : env.cancelAt with
    | none => exact ⟨[], by simp [hsent, hca, relayLoop_none]⟩
    | some k =>
      refine ⟨(extractContents env.lines).drop k, ?_⟩
      rw [hsent, hca, relayLoop_some, Nat.sub_zero]
      exact List.take_append_drop k (extractContents env.lines)
  · intro hca
    rw [hsent, hca, relayLoop_none]
  · intro k hca
    rw [hsent, hca, relayLoop_some]
    simp

/-- Witness for C8 at a concrete stream: two non-empty fragments around
skipped lines, no cancellation. -/
theorem streamCompletion_relays_fragments_witness :
    streamEnvOk.reqErr = false ∧ streamEnvOk.doErr = false ∧
    streamEnvOk.status = 200 ∧
    ((∃ t, (streamCompletion streamEnvOk).sent ++ t = extractContents streamEnvOk.lines) ∧
     (streamEnvOk.cancelAt = none →
       (streamCompletion streamEnvOk).sent = extractContents streamEnvOk.lines) ∧
     (∀ k, streamEnvOk.cancelAt = some k →
       (streamCompletion streamEnvOk).sent = (extractContents streamEnvOk.lines).take k) ∧
     (streamCompletion streamEnvOk).closes = 1) :=
  ⟨rfl, rfl, rfl,
    streamCompletion_relays_fragments streamEnvOk rfl rfl rfl⟩

/-- Claim C6 (code bug): `Service.Delete` removes nothing — neither the
document's chunks nor its metadata row.  Every invocation panics inside the
vector-store deletion step (`RemoveCollection` invoking `tx.Exec` on the nil
`pgx.Tx` passed at main.go line 241), never returns, and leaves the state
untouched; evaluated also at a concrete state holding `doc1`'s chunk and
metadata row, which both survive the call. -/
theorem serviceDelete_panics_removes_nothing :
    (∀ (st : AppState) (docID orgID : String) (dbErr : Option String),
      serviceDelete st docID orgID dbErr = DeleteOutcome.panicked st) ∧
    serviceDelete stOneDoc "doc1" "orgA" none = DeleteOutcome.panicked stOneDoc ∧
    chunkOfDoc1 ∈ (serviceDelete stOneDoc "doc1" "orgA" none).state.vectorChunks ∧
    chunkOfDoc1.documentID = "doc1" ∧
    { id := "doc1", orgID := "orgA" } ∈
      (serviceDelete stOneDoc "doc1" "orgA" none).state.documents :=
  ⟨fun _ _ _ _ => rfl, rfl, by decide, rfl, by decide⟩

/-- Claim C10 (code bug): `DeleteByDocument`'s only failure mode is a panic —
it never returns an error (nor success), so the `err != nil` branch of
`Service.Delete` that the claim describes is dead code and its hypothesis is
satisfied by no execution.  The claim's safety consequence does survive: in
every invocation the metadata delete is never attempted and the metadata
rows (and chunks) are left unchanged — but because `Delete` panics before
reaching it, not because an error is returned. -/
theorem deleteByDocument_never_returns (st : AppState) (docID orgID : String)
    (dbErr : Option String) :
    deleteByDocument st docID = DeleteOutcome.panicked st ∧
    (∀ (e : String) (st' : AppState),
      deleteByDocument st docID ≠ DeleteOutcome.returned (some e) st') ∧
    (serviceDelete st docID orgID dbErr).state.documents = st.documents ∧
    (serviceDelete st docID orgID dbErr).state.vectorChunks = st.vectorChunks :=
  ⟨rfl, fun _ _ h => DeleteOutcome.noConfusion h, rfl, rfl⟩

/-- Claim C7: a successful metadata insert followed by an enqueue attempt on
a full queue returns the created document with status `pending` and no error,
and the queue — hence the set of jobs any worker will ever see — is
unchanged. -/
theorem upload_queue_full_keeps_pending (newID : String) (queue : List String)
    (req : UploadRequest) (hfull : queueCapacity ≤ queue.length) :
    upload newID queue none req =
      (some { id := newID, orgID := req.orgID, name := req.name,
              content := req.content, status := Status.pending, chunkCount := 0 },
        none, queue) := by
  simp only [upload]
  rw [if_neg (Nat.not_lt.mpr hfull)]

/-- Witness for C7: a queue at its capacity of 256. -/
theorem upload_queue_full_keeps_pending_witness :
    queueCapacity ≤ (List.replicate 256 "j").length ∧
    upload "fresh" (List.replicate 256 "j") none
        { orgID := "orgA", name := "doc", content := "text" } =
      (some { id := "fresh", orgID := "orgA", name := "doc", content := "text",
              status := Status.pending, chunkCount := 0 },
        none, List.replicate 256 "j") :=
  ⟨by rw [List.length_replicate]; exact Nat.le_refl 256,
    upload_queue_full_keeps_pending "fresh" _ _
      (by rw [List.length_replicate]; exact Nat.le_refl 256)⟩

/-- Claim C9 counterexample: upserting `(document_id = d, chunk_index = 0)`
twice with different contents leaves two stored chunks with that key, and the
first (stale) content is still stored — not exactly one chunk with the latest
content. -/
theorem addDocuments_c9_counterexample :
    countKey (addDocuments (addDocuments [] 0 [("d", 0, "old")]).1
      (addDocuments [] 0 [("d", 0, "old")]).2 [("d", 0, "new")]).1 "d" 0 = 2 ∧
    { id := 0, documentID := "d", chunkIndex := 0, content := "old" } ∈
      (addDocuments (addDocuments [] 0 [("d", 0, "old")]).1
        (addDocuments [] 0 [("d", 0, "old")]).2 [("d", 0, "new")]).1 := by
  exact ⟨rfl, by decide⟩

/-- Claim C9 (amended): the chunk-store add the pipeline consumes is a plain
insert with fresh ids — not an idempotent upsert: adding the same
`(document_id, chunk_index)` twice increases the number of stored chunks with
that key by two. -/
theorem addDocuments_inserts_duplicates (store : List ChunkRow) (n : Nat)
    (d : String) (i : Nat) (c c' : String) :
    countKey (addDocuments (addDocuments store n [(d, i, c)]).1
      (addDocuments store n [(d, i, c)]).2 [(d, i, c')]).1 d i
      = countKey store d i + 2 := by
  simp [addDocuments, countKey, List.filter_append]

/-- Claim C3 counterexample: a document whose split and store steps succeed
but whose final status update to `ready` is rejected by the database quiesces
with terminal status `processing` — an intermediate state the claim rules
out. -/
theorem ingest_ready_update_failure_leaves_processing :
    ingest docHello envReadyFails = { status := Status.processing, chunkCount := 0 } := by
  decide

/-- Claim C3 (amended): provided every metadata status update the pipeline
issues succeeds — in particular the job's calls complete within the 5-minute
deadline — a processed document quiesces with status exactly `ready` with a
positive chunk count, or `failed` with chunk count zero; never `pending` or
`processing`.  The vector-store add may still fail arbitrarily. -/
theorem ingest_quiesces_ready_or_failed (doc : Document) (env : IngestEnv)
    (hp : env.updProcessing.ok = true) (hfs : env.updFailedSplit.ok = true)
    (hfa : env.updFailedAdd.ok = true) (hr : env.updReady.ok = true)
    (ht : env.updProcessing.dur + env.add.dur + env.updFailedSplit.dur +
      env.updFailedAdd.dur + env.updReady.dur < ingestDeadline) :
    ((ingest doc env).status = Status.ready ∧ 0 < (ingest doc env).chunkCount) ∨
    ((ingest doc env).status = Status.failed ∧ (ingest doc env).chunkCount = 0) := by
  have ht' : env.updProcessing.dur + env.add.dur + env.updFailedSplit.dur +
      env.updFailedAdd.dur + env.updReady.dur < 300 := by
    simpa [ingestDeadline] using ht
  have e1 : runOp 0 env.updProcessing = (true, 0 + env.updProcessing.dur) := by
    simp only [runOp, ingestDeadline]
    rw [if_neg (by omega), if_neg (by omega), hp]
  cases hemp : (splitDocument doc).isEmpty with
  | true =>
    have e2 : runOp (0 + env.updProcessing.dur) env.updFailedSplit =
        (true, 0 + env.updProcessing.dur + env.updFailedSplit.dur) := by
      simp only [runOp, ingestDeadline]
      rw [if_neg (by omega), if_neg (by omega), hfs]
    have hrow : ingest doc env = { status := Status.failed, chunkCount := 0 } := by
      simp only [ingest, e1, hemp, e2]
      simp
    right
    rw [hrow]
    exact ⟨rfl, rfl⟩
  | false =>
    have hne : splitDocument doc ≠ [] := by
      intro hnil
      rw [hnil] at hemp
      simp at hemp
    cases hadd : env.add.ok with
    | true =>
      have e3 : runOp (0 + env.updProcessing.dur) env.add =
          (true, 0 + env.updProcessing.dur + env.add.dur) := by
        simp only [runOp, ingestDeadline]
        rw [if_neg (by omega), if_neg (by omega), hadd]
      have e4 : runOp (0 + env.updProcessing.dur + env.add.dur) env.updReady =
          (true, 0 + env.updProcessing.dur + env.add.dur + env.updReady.dur) := by
        simp only [runOp, ingestDeadline]
        rw [if_neg (by omega), if_neg (by omega), hr]
      have hrow : ingest doc env =
          { status := Status.ready, chunkCount := (splitDocument doc).length } := by
        simp only [ingest, e1, hemp, e3, e4]
        simp
      left
      rw [hrow]
      exact ⟨rfl, List.length_pos.mpr hne⟩
    | false =>
      have e3 : runOp (0 + env.updProcessing.dur) env.add =
          (false, 0 + env.updProcessing.dur + env.add.dur) := by
        simp only [runOp, ingestDeadline]
        rw [if_neg (by omega), if_neg (by omega), hadd]
      have e5 : runOp (0 + env.updProcessing.dur + env.add.dur) env.updFailedAdd =
          (true, 0 + env.updProcessing.dur + env.add.dur + env.updFailedAdd.dur) := by
        simp only [runOp, ingestDeadline]
        rw [if_neg (by omega), if_neg (by omega), hfa]
      have hrow : ingest doc env = { status := Status.failed, chunkCount := 0 } := by
        simp only [ingest, e1, hemp, e3, e5]
        simp
      right
      rw [hrow]
      exact ⟨rfl, rfl⟩

/-- Witness for the amended C3 at a concrete document and a fully healthy
environment. -/
theorem ingest_quiesces_ready_or_failed_witness :
    (envAllOk.updProcessing.ok = true ∧ envAllOk.updFailedSplit.ok = true ∧
      envAllOk.updFailedAdd.ok = true ∧ envAllOk.updReady.ok = true ∧
      envAllOk.updProcessing.dur + envAllOk.add.dur + envAllOk.updFailedSplit.dur +
        envAllOk.updFailedAdd.dur + envAllOk.updReady.dur < ingestDeadline) ∧
    (((ingest docHello envAllOk).status = Status.ready ∧
        0 < (ingest docHello envAllOk).chunkCount) ∨
      ((ingest docHello envAllOk).status = Status.failed ∧
        (ingest docHello envAllOk).chunkCount = 0)) :=
  ⟨⟨rfl, rfl, rfl, rfl, by decide⟩,
    ingest_quiesces_ready_or_failed docHello envAllOk rfl rfl rfl rfl (by decide)⟩

/-- Claim C4 (code bug): a job whose vector-store add outlives the 5-minute
deadline is aborted, but the document is left in `processing`, not `failed`:
the update to `failed` is issued on the job's already-expired context and
itself fails.  Evaluated at a concrete document and a 301-second add. -/
theorem ingest_deadline_exceeded_leaves_processing :
    ingest docHello envSlowAdd = { status := Status.processing, chunkCount := 0 } := by
  decide

/-!
Lemmas about the splitter, building to claim C5: trimming, joining, merging
and splitting never lose the last non-whitespace character, so content with
any ink yields at least one chunk; and every emitted chunk is non-empty.
-/

theorem hasInk_dropWhile (l : List Char) (h : HasInk l) :
    HasInk (l.dropWhile goIsSpace) := by
  induction l with
  | nil => rcases h with ⟨c, hc, _⟩; simp at hc
  | cons a rest ih =>
    rcases h with ⟨c, hc, hcs⟩
    by_cases ha : goIsSpace a = true
    · simp only [List.dropWhile_cons, ha, if_true]
      apply ih
      rcases List.mem_cons.mp hc with rfl | hmem
      · rw [ha] at hcs; cases hcs
      · exact ⟨c, hmem, hcs⟩
    · simp only [List.dropWhile_cons, ha, if_false]
      exact ⟨c, hc, hcs⟩

theorem hasInk_reverse (l : List Char) (h : HasInk l) : HasInk l.reverse := by
  rcases h with ⟨c, hc, hcs⟩
  exact ⟨c, List.mem_reverse.mpr hc, hcs⟩

theorem goTrimSpace_ne_nil (l : List Char) (h : HasInk l) : goTrimSpace l ≠ [] := by
  have h4 : HasInk (goTrimSpace l) :=
    hasInk_reverse _ (hasInk_dropWhile _ (hasInk_reverse _ (hasInk_dropWhile _ h)))
  intro hnil
  rw [hnil] at h4
  rcases h4 with ⟨c, hc, _⟩
  simp at hc

theorem hasInk_goJoin (sep : List Char) :
    ∀ docs : List (List Char), (∃ d ∈ docs, HasInk d) → HasInk (goJoin sep docs) := by
  intro docs
  induction docs with
  | nil => rintro ⟨d, hd, _⟩; simp at hd
  | cons d rest ih =>
    rintro ⟨e, he, hInk⟩
    cases rest with
    | nil =>
      have hed : e = d := by simpa using he
      subst hed
      simpa [goJoin] using hInk
    | cons f t =>
      simp only [goJoin]
      rcases List.mem_cons.mp he with rfl | hrest
      · rcases hInk with ⟨c, hc, hcs⟩
        exact ⟨c, by simp [hc], hcs⟩
      · rcases ih ⟨e, hrest, hInk⟩ with ⟨c, hc, hcs⟩
        exact ⟨c, by simp [hc], hcs⟩

theorem joinDocs_ne_nil (docs : List (List Char)) (sep : List Char)
    (h : ∃ d ∈ docs, HasInk d) : joinDocs docs sep ≠ [] :=
  goTrimSpace_ne_nil _ (hasInk_goJoin sep docs h)

theorem isEmpty_false_of_ne_nil {l : List (List Char)} (h : l ≠ []) :
    l.isEmpty = false := by
  cases hb : l.isEmpty
  · rfl
  · exact absurd (List.isEmpty_iff.mp hb) h

theorem isEmptyC_false_of_ne_nil {l : List Char} (h : l ≠ []) :
    l.isEmpty = false := by
  cases hb : l.isEmpty
  · rfl
  · exact absurd (List.isEmpty_iff.mp hb) h

theorem mergeSplitsAux_ne_nil (sep : List Char) (cs co : Int) :
    ∀ (splits currentDoc : List (List Char)) (total : Int),
      (∃ d ∈ currentDoc ++ splits, HasInk d) →
      mergeSplitsAux sep cs co splits currentDoc total ≠ [] := by
  intro splits
  induction splits with
  | nil =>
    intro currentDoc total h
    simp only [mergeSplitsAux]
    rcases h with ⟨d, hd, hInk⟩
    rw [List.append_nil] at hd
    have hj : joinDocs currentDoc sep ≠ [] := joinDocs_ne_nil _ _ ⟨d, hd, hInk⟩
    simp [isEmptyC_false_of_ne_nil hj, hj]
  | cons s rest ih =>
    intro currentDoc total h
    simp only [mergeSplitsAux]
    by_cases hcond : cs < total + (s.length : Int) +
        (if currentDoc.isEmpty then 0 else (sep.length : Int)) ∧ currentDoc ≠ []
    · rw [if_pos hcond]
      rcases h with ⟨d, hd, hInk⟩
      rcases List.mem_append.mp hd with hcd | hsr
      · have hj : joinDocs currentDoc sep ≠ [] := joinDocs_ne_nil _ _ ⟨d, hcd, hInk⟩
        simp [isEmptyC_false_of_ne_nil hj]
      · intro hnil
        rcases List.append_eq_nil.mp hnil with ⟨_, h2⟩
        apply ih _ _ ?_ h2
        rcases List.mem_cons.mp hsr with rfl | hr
        · exact ⟨d, by simp, hInk⟩
        · exact ⟨d, by simp [hr], hInk⟩
    · rw [if_neg hcond]
      apply ih
      rcases h with ⟨d, hd, hInk⟩
      refine ⟨d, ?_, hInk⟩
      rw [List.append_assoc, List.singleton_append]
      exact hd

theorem splitNEAux_ne_nil (sep : List Char) :
    ∀ (fuel : Nat) (text : List Char), splitNEAux sep fuel text ≠ [] := by
  intro fuel text
  match fuel, text with
  | _, [] => simp [splitNEAux]
  | 0, c :: rest => simp [splitNEAux]
  | f + 1, c :: rest =>
    simp only [splitNEAux]
    split
    · simp
    · split <;> simp

theorem goHasPre_eq_append [BEq α] [LawfulBEq α] :
    ∀ (p l : List α), goHasPre p l = true → l = p ++ l.drop p.length := by
  intro p
  induction p with
  | nil => intro l _; simp
  | cons a as ih =>
    intro l h
    cases l with
    | nil => simp [goHasPre] at h
    | cons b bs =>
      simp only [goHasPre, Bool.and_eq_true, beq_iff_eq] at h
      obtain ⟨h1, h2⟩ := h
      subst h1
      have h3 := ih bs h2
      calc a :: bs = a :: (as ++ bs.drop as.length) := by rw [← h3]
        _ = (a :: as) ++ bs.drop as.length := rfl
        _ = (a :: as) ++ (a :: bs).drop (a :: as).length := by
              simp [List.drop_succ_cons]

theorem splitNEAux_ink (sep : List Char) (hsep : sep ≠ []) (hsp : AllSpace sep) :
    ∀ (fuel : Nat) (text : List Char), HasInk text →
      ∃ s ∈ splitNEAux sep fuel text, HasInk s := by
  intro fuel
  induction fuel with
  | zero =>
    intro text h
    cases text with
    | nil => rcases h with ⟨c, hc, _⟩; simp at hc
    | cons c rest => exact ⟨c :: rest, by simp [splitNEAux], h⟩
  | succ f ih =>
    intro text h
    cases text with
    | nil => rcases h with ⟨c, hc, _⟩; simp at hc
    | cons c rest =>
      simp only [splitNEAux]
      by_cases hpre : goHasPre sep (c :: rest) = true
      · rw [if_pos hpre]
        have happ := goHasPre_eq_append sep (c :: rest) hpre
        rcases h with ⟨x, hx, hxs⟩
        have hxtail : x ∈ rest.drop (sep.length - 1) := by
          have hx2 : x ∈ sep ++ (c :: rest).drop sep.length := by
            rw [← happ]; exact hx
          rcases List.mem_append.mp hx2 with hxsep | hxtl
          · rw [hsp x hxsep] at hxs; cases hxs
          · have hlen : sep.length = (sep.length - 1) + 1 := by
              cases sep
              · exact absurd rfl hsep
              · simp
            rw [hlen, List.drop_succ_cons] at hxtl
            exact hxtl
        rcases ih (rest.drop (sep.length - 1)) ⟨x, hxtail, hxs⟩ with ⟨s, hs, hsInk⟩
        exact ⟨s, List.mem_cons.mpr (Or.inr hs), hsInk⟩
      · rw [if_neg hpre]
        rcases h with ⟨x, hx, hxs⟩
        rcases List.mem_cons.mp hx with rfl | hxr
        · cases hm : splitNEAux sep f rest with
          | nil => exact absurd hm (splitNEAux_ne_nil sep f rest)
          | cons h0 t =>
            exact ⟨x :: h0, by simp, ⟨x, by simp, hxs⟩⟩
        · rcases ih rest ⟨x, hxr, hxs⟩ with ⟨s, hs, hsInk⟩
          cases hm : splitNEAux sep f rest with
          | nil => exact absurd hm (splitNEAux_ne_nil sep f rest)
          | cons h0 t =>
            rw [hm] at hs
            rcases List.mem_cons.mp hs with rfl | hst
            · rcases hsInk with ⟨y, hy, hys⟩
              exact ⟨c :: s, by simp, ⟨y, by simp [hy], hys⟩⟩
            · exact ⟨s, by simp [hst], hsInk⟩

theorem goSplit_ink (text sep : List Char) (hsp : AllSpace sep) (h : HasInk text) :
    ∃ s ∈ goSplit text sep, HasInk s := by
  by_cases hse : sep.isEmpty = true
  · have hnil : sep = [] := List.isEmpty_iff.mp hse
    subst hnil
    rcases h with ⟨c, hc, hcs⟩
    refine ⟨[c], ?_, ⟨c, by simp, hcs⟩⟩
    simp only [goSplit, List.isEmpty_nil, if_true]
    exact List.mem_map.mpr ⟨c, hc, rfl⟩
  · have hne : sep ≠ [] := by
      intro hn; rw [hn] at hse; simp at hse
    have hb : sep.isEmpty = false := isEmptyC_false_of_ne_nil hne
    simp only [goSplit, hb, if_false]
    exact splitNEAux_ink sep hne hsp text.length text h

theorem chooseSep_spec :
    ∀ (seps : List (List Char)) (text : List Char), seps ≠ [] →
      (chooseSep seps text).1 ∈ seps ∧
      (chooseSep seps text).2.length < seps.length ∧
      ∀ s ∈ (chooseSep seps text).2, s ∈ seps := by
  intro seps
  induction seps with
  | nil => intro text h; exact absurd rfl h
  | cons c rest ih =>
    intro text _
    cases rest with
    | nil => simp [chooseSep]
    | cons c2 t =>
      simp only [chooseSep]
      by_cases hc : (c.isEmpty || goContains text c) = true
      · rw [if_pos hc]
        exact ⟨by simp, by simp, fun s hs => by simp [hs]⟩
      · rw [if_neg hc]
        obtain ⟨hm, hl, hall⟩ := ih text (by simp)
        refine ⟨List.mem_cons.mpr (Or.inr hm), ?_,
          fun s hs => List.mem_cons.mpr (Or.inr (hall s hs))⟩
        exact Nat.lt_succ_of_lt hl

theorem splitLoopH_ink (cs co : Int) (sep : List Char) (newSeps : List (List Char))
    (recur : List Char → List (List Char))
    (hrec : newSeps ≠ [] → ∀ t, HasInk t → recur t ≠ []) :
    ∀ (splits good : List (List Char)), (∃ d ∈ good ++ splits, HasInk d) →
      splitLoopH cs co sep newSeps recur splits good ≠ [] := by
  intro splits
  induction splits with
  | nil =>
    intro good h
    simp only [splitLoopH]
    rcases h with ⟨d, hd, hInk⟩
    rw [List.append_nil] at hd
    have hgood : good ≠ [] := by rintro rfl; simp at hd
    rw [isEmpty_false_of_ne_nil hgood]
    simp only [Bool.false_eq_true, if_false]
    exact mergeSplitsAux_ne_nil sep cs co good [] 0 ⟨d, by simpa using hd, hInk⟩
  | cons s rest ih =>
    intro good h
    simp only [splitLoopH]
    by_cases hsmall : ((s.length : Int) < cs)
    · rw [if_pos hsmall]
      apply ih (good ++ [s])
      rcases h with ⟨d, hd, hInk⟩
      refine ⟨d, ?_, hInk⟩
      rw [List.append_assoc, List.singleton_append]
      exact hd
    · rw [if_neg hsmall]
      rcases h with ⟨d, hd, hInk⟩
      rcases List.mem_append.mp hd with hg | hsr
      · have hgood : good ≠ [] := by rintro rfl; simp at hg
        have hfl : mergeSplits sep cs co good ≠ [] :=
          mergeSplitsAux_ne_nil sep cs co good [] 0 ⟨d, by simpa using hg, hInk⟩
        rw [isEmpty_false_of_ne_nil hgood]
        simp only [Bool.false_eq_true, if_false]
        intro hnil
        rcases List.append_eq_nil.mp hnil with ⟨h1, _⟩
        rcases List.append_eq_nil.mp h1 with ⟨h2, _⟩
        exact hfl h2
      · rcases List.mem_cons.mp hsr with rfl | hr
        · by_cases hns : newSeps.isEmpty = true
          · intro hnil
            rw [hns] at hnil
            simp [List.append_eq_nil] at hnil
          · have hnsne : newSeps ≠ [] := by
              intro hn; rw [hn] at hns; simp at hns
            have hsub : recur d ≠ [] := hrec hnsne d hInk
            have hb : newSeps.isEmpty = false := isEmpty_false_of_ne_nil hnsne
            rw [hb]
            simp only [Bool.false_eq_true, if_false]
            intro hnil
            rcases List.append_eq_nil.mp hnil with ⟨h2, _⟩
            rcases List.append_eq_nil.mp h2 with ⟨_, h3⟩
            exact hsub h3
        · intro hnil
          rcases List.append_eq_nil.mp hnil with ⟨_, h2⟩
          exact ih [] ⟨d, by simpa using hr, hInk⟩ h2

theorem splitTextF_ink (cs co : Int) :
    ∀ (fuel : Nat) (seps : List (List Char)) (text : List Char),
      seps ≠ [] → seps.length ≤ fuel → AllSpaceSeps seps → HasInk text →
      splitTextF cs co fuel seps text ≠ [] := by
  intro fuel
  induction fuel with
  | zero =>
    intro seps text hne hlen _ _
    cases seps with
    | nil => exact absurd rfl hne
    | cons a b => simp at hlen
  | succ f ih =>
    intro seps text hne hlen hsp hink
    simp only [splitTextF]
    rw [isEmpty_false_of_ne_nil hne]
    simp only [Bool.false_eq_true, if_false]
    obtain ⟨hmem, hlt, hsub⟩ := chooseSep_spec seps text hne
    apply splitLoopH_ink
    · intro hns t ht
      exact ih (chooseSep seps text).2 t hns (by omega)
        (fun s hs => hsp s (hsub s hs)) ht
    · obtain ⟨s, hs, hsInk⟩ := goSplit_ink text (chooseSep seps text).1 (hsp _ hmem) hink
      exact ⟨s, by simpa using hs, hsInk⟩

theorem mergeSplitsAux_chunks_ne_nil (sep : List Char) (cs co : Int) :
    ∀ (splits currentDoc : List (List Char)) (total : Int),
      ∀ ch ∈ mergeSplitsAux sep cs co splits currentDoc total, ch ≠ [] := by
  intro splits
  induction splits with
  | nil =>
    intro currentDoc total ch hch
    simp only [mergeSplitsAux] at hch
    by_cases hj : (joinDocs currentDoc sep).isEmpty = true
    · rw [if_pos hj] at hch
      simp at hch
    · rw [if_neg hj] at hch
      have : ch = joinDocs currentDoc sep := by simpa using hch
      subst this
      intro hn
      rw [hn] at hj
      simp at hj
  | cons s rest ih =>
    intro currentDoc total ch hch
    simp only [mergeSplitsAux] at hch
    by_cases hcond : cs < total + (s.length : Int) +
        (if currentDoc.isEmpty then 0 else (sep.length : Int)) ∧ currentDoc ≠ []
    · rw [if_pos hcond] at hch
      rcases List.mem_append.mp hch with he | hrec2
      · by_cases hj : (joinDocs currentDoc sep).isEmpty = true
        · rw [if_pos hj] at he
          simp at he
        · rw [if_neg hj] at he
          have : ch = joinDocs currentDoc sep := by simpa using he
          subst this
          intro hn
          rw [hn] at hj
          simp at hj
      · exact ih _ _ ch hrec2
    · rw [if_neg hcond] at hch
      exact ih _ _ ch hch

theorem splitLoopH_chunks_ne_nil (cs co : Int) (sep : List Char)
    (newSeps : List (List Char)) (recur : List Char → List (List Char))
    (hcs : 0 < cs) (hrec : ∀ t, ∀ ch ∈ recur t, ch ≠ []) :
    ∀ (splits good : List (List Char)),
      ∀ ch ∈ splitLoopH cs co sep newSeps recur splits good, ch ≠ [] := by
  intro splits
  induction splits with
  | nil =>
    intro good ch hch
    simp only [splitLoopH] at hch
    by_cases hg : good.isEmpty = true
    · rw [if_pos hg] at hch
      simp at hch
    · rw [if_neg hg] at hch
      exact mergeSplitsAux_chunks_ne_nil sep cs co good [] 0 ch hch
  | cons s rest ih =>
    intro good ch hch
    simp only [splitLoopH] at hch
    by_cases hsmall : ((s.length : Int) < cs)
    · rw [if_pos hsmall] at hch
      exact ih _ ch hch
    · rw [if_neg hsmall] at hch
      rcases List.mem_append.mp hch with h12 | h4
      · rcases List.mem_append.mp h12 with h1 | h3
        · by_cases hg : good.isEmpty = true
          · rw [if_pos hg] at h1
            simp at h1
          · rw [if_neg hg] at h1
            exact mergeSplitsAux_chunks_ne_nil sep cs co good [] 0 ch h1
        · by_cases hns : newSeps.isEmpty = true
          · rw [if_pos hns] at h3
            have : ch = s := by simpa using h3
            subst this
            intro hnil
            rw [hnil] at hsmall
            apply hsmall
            simpa using hcs
          · rw [if_neg hns] at h3
            exact hrec s ch h3
      · exact ih [] ch h4

theorem splitTextF_chunks_ne_nil (cs co : Int) (hcs : 0 < cs) :
    ∀ (fuel : Nat) (seps : List (List Char)) (text : List Char),
      ∀ ch ∈ splitTextF cs co fuel seps text, ch ≠ [] := by
  intro fuel
  induction fuel with
  | zero =>
    intro seps text ch hch
    simp [splitTextF] at hch
  | succ f ih =>
    intro seps text ch hch
    simp only [splitTextF] at hch
    by_cases hse : seps.isEmpty = true
    · rw [if_pos hse] at hch
      simp at hch
    · rw [if_neg hse] at hch
      exact splitLoopH_chunks_ne_nil cs co _ _ _ hcs
        (fun t => ih (chooseSep seps text).2 t) _ _ ch hch

set_option maxRecDepth 1000000 in
/-- Claim C5 counterexample, at two concrete documents.  `docWhitespace` has
non-empty content (a single space) yet splits into zero chunks.
`docRepeated` (70 seven-character words) splits into two chunks, and the
second chunk does not start with the final 64 words of the first: the
splitter windows by characters (512/64), so the actual overlap is only 8
words. -/
theorem splitDocument_c5_counterexample :
    (docWhitespace.content ≠ "" ∧ splitDocument docWhitespace = []) ∧
    (docRepeated.content ≠ "" ∧ splitDocument docRepeated ≠ [] ∧
      wordOverlap64 ((splitDocument docRepeated).map
        (fun ch => ch.pageContent.data)) = false) := by
  refine ⟨⟨by decide, by decide⟩, ⟨by decide, by decide, by decide⟩⟩

/-- Claim C5 (amended): for document content containing at least one
non-whitespace character, `splitDocument` returns a non-empty ordered
sequence of chunks — produced by the recursive character splitter with a
512-character window and 64 characters of best-effort overlap, not fixed
64-word overlaps — and every chunk is non-empty and carries the document's
org, id and name as its metadata.  (Whitespace-only content yields no
chunks.) -/
theorem splitDocument_amended (doc : Document) (h : HasInk doc.content.data) :
    splitDocument doc ≠ [] ∧
    ∀ ch ∈ splitDocument doc, ch.pageContent ≠ "" ∧
      ch.metadata = { orgID := doc.orgID, documentID := doc.id,
                      docName := doc.name } := by
  constructor
  · have h1 : splitTextF 512 64 goSeparators.length goSeparators doc.content.data ≠ [] :=
      splitTextF_ink 512 64 goSeparators.length goSeparators doc.content.data
        (by decide) (Nat.le_refl _) (by unfold AllSpaceSeps AllSpace; decide) h
    intro hnil
    apply h1
    simpa [splitDocument, splitText, List.map_eq_nil_iff] using hnil
  · intro ch hch
    obtain ⟨cs, hcs, rfl⟩ := List.mem_map.mp (by simpa [splitDocument] using hch)
    refine ⟨?_, rfl⟩
    have hne : cs ≠ [] :=
      splitTextF_chunks_ne_nil 512 64 (by norm_num) goSeparators.length goSeparators
        doc.content.data cs (by simpa [splitText] using hcs)
    intro hstr
    apply hne
    have := congrArg String.data hstr
    simpa using this

/-- Witness for the amended C5 at a concrete document. -/
theorem splitDocument_amended_witness :
    HasInk docHello.content.data ∧
    (splitDocument docHello ≠ [] ∧
      ∀ ch ∈ splitDocument docHello, ch.pageContent ≠ "" ∧
        ch.metadata = { orgID := docHello.orgID, documentID := docHello.id,
                        docName := docHello.name }) :=
  ⟨by unfold HasInk; decide, splitDocument_amended docHello (by unfold HasInk; decide)⟩

end MultiTenantAI
